import Mathlib

/-!
# Verification of the `consistent_hash` ring (game1991/consistent_hash)

A shallow embedding of `consistent_hash.go` (the current revision of the
file).  Go `uint32` hash positions are modelled as `Nat` (all produced
values are `< 2^32`; where 32-bit arithmetic matters, `2^32` appears
explicitly).  Go maps are modelled as association lists with
overwrite/delete operations and zero-value lookups (`""` for `string`,
`0` for `int`), matching Go map semantics.  Go `float64` arithmetic in
`GetStats` is modelled by exact rationals; the division `0.0/0.0`
(IEEE NaN, arising when no members exist) is modelled as `none`.
`sort.Slice` with a `<` comparator on `uint32` is modelled by
`List.insertionSort (· ≤ ·)`: a sorted permutation of a list of naturals
is unique, so any comparison sort agrees with it.  `sort.Search` (binary
search for the least index satisfying a monotone predicate) is modelled
by `List.findIdx`, with which it agrees on sorted rings — the only rings
the program ever searches.  The potentially non-terminating walk in
`GetN` is modelled with explicit fuel, `none` meaning the loop is still
running after that many iterations.
-/

namespace ConsistentHashing

/-- Go `[]byte` contents: a list of byte values. -/
abbrev Bytes := List Nat

/-- The `Hasher` interface: a deterministic function from bytes to a
32-bit position (`Hash(key []byte) uint32`). -/
abbrev Hasher := Bytes → Nat

/-- The bytes of a Go string (ASCII: one byte per character). -/
def strBytes (s : String) : Bytes := s.data.map Char.toNat

/-- Association-list lookup with Go's zero-value default `""`
(`c.hashMap[hash]` on a missing key yields the empty string). -/
def mlookup (m : List (Nat × String)) (k : Nat) : String :=
  match m.find? (fun p => p.1 = k) with
  | some p => p.2
  | none => ""

/-- Go map store `m[k] = v`: overwrite any existing entry for `k`. -/
def mput (m : List (Nat × String)) (k : Nat) (v : String) : List (Nat × String) :=
  m.filter (fun p => p.1 ≠ k) ++ [(k, v)]

/-- Go `delete(m, k)`. -/
def mdel (m : List (Nat × String)) (k : Nat) : List (Nat × String) :=
  m.filter (fun p => p.1 ≠ k)

/-- Weight-table lookup with Go's zero-value default `0`. -/
def wlookup (m : List (String × Int)) (k : String) : Int :=
  match m.find? (fun p => p.1 = k) with
  | some p => p.2
  | none => 0

/-- Weight-table store. -/
def wput (m : List (String × Int)) (k : String) (v : Int) : List (String × Int) :=
  m.filter (fun p => p.1 ≠ k) ++ [(k, v)]

/-- Weight-table delete. -/
def wdel (m : List (String × Int)) (k : String) : List (String × Int) :=
  m.filter (fun p => p.1 ≠ k)

/-- The `ConsistentHash` struct: base replica count (`config.Replicas`),
the pluggable hasher, the sorted ring of positions, the weight table,
the position→node table (`hashMap`) and the member set. -/
structure CH where
  replicas : Int
  hasher : Hasher
  ring : List Nat
  weights : List (String × Int)
  hashMap : List (Nat × String)
  members : List String

/-- `New`: an empty ring with the given configuration. -/
def New (replicas : Int) (hasher : Hasher) : CH :=
  { replicas := replicas, hasher := hasher, ring := [], weights := [],
    hashMap := [], members := [] }

/-- `SetVirtualReplicas`: replaces `config.Replicas`. -/
def SetVirtualReplicas (c : CH) (replicas : Int) : CH :=
  { c with replicas := replicas }

/-- `hashKey`: a key of at most 64 bytes is copied into a fixed
64-byte buffer (zero padded) and the whole buffer is hashed; a longer
key is hashed directly. -/
def hashKey (hasher : Hasher) (key : String) : Nat :=
  let bs := strBytes key
  if bs.length ≤ 64 then hasher (bs ++ List.replicate (64 - bs.length) 0)
  else hasher bs

/-- `formatKey`: the virtual-node identifier `key + "-" + strconv.Itoa(i)`. -/
def formatKey (key : String) (i : Nat) : String :=
  key ++ "-" ++ toString i

/-- The hash positions of a member's virtual nodes `member-0 … member-(n-1)`. -/
def virtualHashes (hasher : Hasher) (member : String) (n : Nat) : List Nat :=
  (List.range n).map (fun i => hashKey hasher (formatKey member i))

/-- The state produced by `addNode`'s successful path: register the
member and its weight, append the `Replicas × weight` virtual positions
to the ring and the position table, and re-sort the ring. -/
def addedState (c : CH) (member : String) (weight : Int) : CH :=
  let hs := virtualHashes c.hasher member ((c.replicas * weight).toNat)
  { c with
    members := c.members ++ [member]
    weights := wput c.weights member weight
    ring := (c.ring ++ hs).insertionSort (· ≤ ·)
    hashMap := hs.foldl (fun m h => mput m h member) c.hashMap }

/-- `addNode`: weight and duplicate/empty-name validation, then the
successful insertion path.  The Go method mutates its receiver only
after both checks pass, so the error cases carry no new state. -/
def addNode (c : CH) (member : String) (weight : Int) : Except String CH :=
  if weight ≤ 0 then .error "weight must be positive"
  else if member ∈ c.members ∨ member = "" then .error "member already exists or empty"
  else .ok (addedState c member weight)

/-- `Add`: batch insertion with default weight 1; per-name errors are
discarded and leave the state untouched. -/
def Add (c : CH) (ms : List String) : CH :=
  ms.foldl (fun c m => match addNode c m 1 with | .ok c' => c' | .error _ => c) c

/-- `AddWithWeight` as observed by the caller: the resulting state
(unchanged on error) together with the error message, if any. -/
def AddWithWeightState (c : CH) (member : String) (weight : Int) : CH × Option String :=
  match addNode c member weight with
  | .ok c' => (c', none)
  | .error e => (c, some e)

/-- Removal of a single member: recompute its `Replicas × weight`
virtual hashes with the current base replica count, delete them from the
position table, drop the member and its weight, and rebuild the ring
from the remaining table keys, sorted. -/
def removedState (c : CH) (member : String) : CH :=
  let hs := virtualHashes c.hasher member ((c.replicas * wlookup c.weights member).toNat)
  let hashMap' := hs.foldl (fun m h => mdel m h) c.hashMap
  { c with
    members := c.members.filter (fun x => x ≠ member)
    weights := wdel c.weights member
    hashMap := hashMap'
    ring := (hashMap'.map (fun p => p.1)).insertionSort (· ≤ ·) }

/-- `Remove`'s per-member step: absent or empty names are skipped. -/
def removeNode (c : CH) (member : String) : CH :=
  if member ∉ c.members ∨ member = "" then c else removedState c member

/-- `Remove`: batch removal. -/
def Remove (c : CH) (ms : List String) : CH :=
  ms.foldl removeNode c

/-- The index `findNode` computes: the least index whose position is
`≥ hash` (`sort.Search`, modelled by `findIdx` — they agree on sorted
rings), wrapping to index 0 past the end. -/
def findNodeIdx (c : CH) (hash : Nat) : Nat :=
  if c.ring.findIdx (fun x => hash ≤ x) = c.ring.length then 0
  else c.ring.findIdx (fun x => hash ≤ x)

/-- `findNode`: the wrapped index together with the owner of the
position there. -/
def findNode (c : CH) (hash : Nat) : Nat × String :=
  (findNodeIdx c hash, mlookup c.hashMap (c.ring.getD (findNodeIdx c hash) 0))

/-- `Get`: empty string on an empty ring, otherwise the owner of the
position `findNode` selects for the key's hash. -/
def Get (c : CH) (key : String) : String :=
  if c.ring.length = 0 then ""
  else (findNode c (hashKey c.hasher key)).2

/-- One state of `GetN`'s ring walk, with fuel: `none` means the Go
loop would still be running after `fuel` iterations. -/
def getNLoop (c : CH) (n : Int) : Nat → Nat → List String → Option (List String)
  | 0, _, _ => none
  | fuel + 1, idx, acc =>
    if (acc.length : Int) < n ∧ acc.length < c.members.length then
      let member := mlookup c.hashMap (c.ring.getD idx 0)
      let acc' := if member ∈ acc then acc else acc ++ [member]
      getNLoop c n fuel ((idx + 1) % c.ring.length) acc'
    else some acc

/-- `GetN` with explicit fuel for the walk; the Go function never
returns when every fuel bound yields `none`. -/
def GetNFuel (c : CH) (key : String) (n : Int) (fuel : Nat) : Option (List String) :=
  if n ≤ 0 then some []
  else if c.ring.length = 0 then some []
  else getNLoop c n fuel (findNode c (hashKey c.hasher key)).1 []

/-- `Members`: the current member names. -/
def Members (c : CH) : List String := c.members

/-- The full position space used by `GetStats`: `math.MaxUint32 = 2^32 − 1`. -/
def maxU : Nat := 2 ^ 32 - 1

/-- One arc of the ring: `end − start`, or `MaxUint32 − start + end`
when the arc wraps past the maximum position (`end ≤ start`). -/
def portionOf (s e : Nat) : Nat :=
  if s < e then e - s else maxU - s + e

/-- The consecutive position pairs `(ring[i], ring[(i+1) % n])` that
`GetStats` iterates over. -/
def ringPairs (c : CH) : List (Nat × Nat) :=
  c.ring.zip (c.ring.rotate 1)

/-- An arc as a percentage of the position space
(`float64(portion) / float64(math.MaxUint32) * 100`, modelled exactly). -/
def pctOf (pr : Nat × Nat) : ℚ :=
  ((portionOf pr.1 pr.2 : ℚ) / (maxU : ℚ)) * 100

/-- `stats.LoadDistribution[member] += v` on a Go map: read with
zero-value default, add, store. -/
def addLoad (dist : List (String × ℚ)) (m : String) (v : ℚ) : List (String × ℚ) :=
  if dist.any (fun p => p.1 = m) then
    dist.map (fun p => if p.1 = m then (p.1, p.2 + v) else p)
  else dist ++ [(m, v)]

/-- `math.Round(x*10000)/10000`: rounding to four decimal places
(all rounded values here are nonnegative, where `math.Round` and
`round` agree). -/
def round4 (x : ℚ) : ℚ := (round (x * 10000) : ℚ) / 10000

/-- The `Stats` struct.  `averageWeight` is `none` when the Go code
produces the non-finite `float64` value `0.0/0.0` (NaN). -/
structure Stats where
  totalPhysicalNodes : Nat
  totalHashNodes : Nat
  averageWeight : Option ℚ
  weightDistribution : List (String × Int)
  loadDistribution : List (String × ℚ)
  deriving DecidableEq

/-- `GetStats`: node counts, weight distribution, average weight
(`float64(totalWeight) / float64(len(members))`, unguarded — NaN on an
empty member set), and, for a non-empty ring, per-member load
percentages accumulated arc by arc and rounded to four decimals. -/
def GetStats (c : CH) : Stats :=
  let wd := c.members.map (fun m => (m, wlookup c.weights m))
  let totalWeight := (c.members.map (fun m => wlookup c.weights m)).sum
  let avg : Option ℚ :=
    if c.members.length = 0 then none
    else some ((totalWeight : ℚ) / (c.members.length : ℚ))
  if c.ring.length = 0 then
    ⟨c.members.length, c.ring.length, avg, wd, []⟩
  else
    let base := c.members.map (fun m => (m, (0 : ℚ)))
    let dist := (ringPairs c).foldl
      (fun d pr => addLoad d (mlookup c.hashMap pr.1) (pctOf pr)) base
    ⟨c.members.length, c.ring.length, avg, wd,
      dist.map (fun p => (p.1, round4 p.2))⟩

/-! ## Selection on the sorted ring

`selPos l h` is the specification-side reading of the lookup rule: the
first element of `l` that is `≥ h`, wrapping to the head of `l` when
every element is below `h`.  On a sorted ring this is exactly the
position `findNode` selects. -/

/-- The first element `≥ h`, or the head of the list when `h` exceeds
every element (the ring is logically circular). -/
def selPos (l : List Nat) (h : Nat) : Nat :=
  match l.find? (fun x => h ≤ x) with
  | some p => p
  | none => l.headD 0

theorem getD_zero_eq_headD (l : List Nat) (d : Nat) : l.getD 0 d = l.headD d := by
  cases l <;> rfl

theorem getD_findIdx (l : List Nat) (p : Nat → Bool) (d : Nat) :
    l.getD (l.findIdx p) d = (match l.find? p with | some x => x | none => d) := by
  induction l with
  | nil => rfl
  | cons a t ih =>
    by_cases hpa : p a
    · simp [List.findIdx_cons, List.find?_cons, hpa]
    · have h1 : p a = false := by simpa using hpa
      simp only [List.findIdx_cons, h1, cond_false, List.getD_cons_succ, List.find?_cons]
      exact ih

theorem findIdx_lt_length_of_find?_some {l : List Nat} {p : Nat → Bool} {x : Nat}
    (h : l.find? p = some x) : l.findIdx p < l.length := by
  induction l with
  | nil => simp at h
  | cons a t ih =>
    by_cases hpa : p a
    · simp [List.findIdx_cons, hpa]
    · simp only [List.find?_cons, hpa] at h
      simp [List.findIdx_cons, hpa, Nat.succ_lt_succ (ih h)]

theorem findIdx_eq_length_of_find?_none {l : List Nat} {p : Nat → Bool}
    (h : l.find? p = none) : l.findIdx p = l.length := by
  induction l with
  | nil => rfl
  | cons a t ih =>
    rw [List.find?_eq_none] at h
    have hpa : p a = false := by
      simpa using h a (by simp)
    have ht : t.find? p = none := by
      rw [List.find?_eq_none]
      exact fun x hx => h x (by simp [hx])
    simp [List.findIdx_cons, hpa, ih ht]

theorem selPos_eq_of_find?_some {l : List Nat} {h p : Nat}
    (hf : l.find? (fun x => h ≤ x) = some p) : selPos l h = p := by
  unfold selPos
  rw [hf]

theorem selPos_eq_of_find?_none {l : List Nat} {h : Nat}
    (hf : l.find? (fun x => h ≤ x) = none) : selPos l h = l.headD 0 := by
  unfold selPos
  rw [hf]

/-- On a non-empty ring, `Get` returns the owner of the position
`selPos` selects; `sort.Search`'s wrap-to-zero step corresponds to
`selPos`'s wrap to the head. -/
theorem Get_eq_selPos (c : CH) (key : String) (hne : c.ring ≠ []) :
    Get c key = mlookup c.hashMap (selPos c.ring (hashKey c.hasher key)) := by
  have hlen : ¬ c.ring.length = 0 := fun h0 => hne (List.length_eq_zero.1 h0)
  unfold Get findNode findNodeIdx
  rw [if_neg hlen]
  rcases hf : c.ring.find? (fun x => hashKey c.hasher key ≤ x) with _ | p
  · rw [selPos_eq_of_find?_none hf]
    have hidx := findIdx_eq_length_of_find?_none hf
    rw [hidx, if_pos rfl, getD_zero_eq_headD]
  · rw [selPos_eq_of_find?_some hf]
    have hidx := findIdx_lt_length_of_find?_some hf
    rw [if_neg (Nat.ne_of_lt hidx)]
    have hgd := getD_findIdx c.ring (fun x => decide (hashKey c.hasher key ≤ x)) 0
    rw [hf] at hgd
    rw [hgd]

theorem selPos_mem {l : List Nat} (h : Nat) (hne : l ≠ []) : selPos l h ∈ l := by
  unfold selPos
  rcases hf : l.find? (fun x => h ≤ x) with _ | p
  · obtain ⟨a, t, rfl⟩ := List.exists_cons_of_ne_nil hne
    simp
  · exact List.mem_of_find?_eq_some hf

theorem le_selPos_of_find?_some {l : List Nat} {h q : Nat}
    (hf : l.find? (fun x => h ≤ x) = some q) : h ≤ q := by
  simpa using List.find?_some hf

/-- On a sorted list, the element `find?` returns is the least element
satisfying the (here: upward-closed) predicate. -/
theorem find?_min_of_sorted {l : List Nat} {h q : Nat}
    (hl : l.Sorted (· ≤ ·)) (hf : l.find? (fun x => h ≤ x) = some q) :
    ∀ x ∈ l, h ≤ x → q ≤ x := by
  induction l with
  | nil => simp at hf
  | cons a t ih =>
    intro x hx hhx
    by_cases hpa : h ≤ a
    · have : q = a := by
        simp [List.find?_cons, hpa] at hf
        exact hf.symm
      subst this
      rcases List.mem_cons.1 hx with rfl | hxt
      · exact le_refl x
      · exact (List.sorted_cons.1 hl).1 x hxt
    · simp only [List.find?_cons] at hf
      have hpa' : (decide (h ≤ a)) = false := by simpa using hpa
      rw [hpa'] at hf
      rcases List.mem_cons.1 hx with rfl | hxt
      · exact absurd hhx hpa
      · exact ih (List.sorted_cons.1 hl).2 hf x hxt hhx

theorem find?_none_all_lt {l : List Nat} {h : Nat}
    (hf : l.find? (fun x => h ≤ x) = none) : ∀ x ∈ l, x < h := by
  intro x hx
  have := (List.find?_eq_none.1 hf) x hx
  simpa [Nat.lt_iff_le_and_ne, Nat.not_le] using this

theorem headD_le_of_sorted {l : List Nat} {x : Nat} (hl : l.Sorted (· ≤ ·))
    (hx : x ∈ l) (d : Nat) : l.headD d ≤ x := by
  obtain ⟨a, t, rfl⟩ := List.exists_cons_of_ne_nil (List.ne_nil_of_mem hx)
  rcases List.mem_cons.1 hx with rfl | hxt
  · simp
  · simpa using (List.sorted_cons.1 hl).1 x hxt

theorem find?_congr_mem {l : List Nat} {p q : Nat → Bool}
    (h : ∀ x ∈ l, p x = q x) : l.find? p = l.find? q := by
  induction l with
  | nil => rfl
  | cons a t ih =>
    have ha := h a (by simp)
    by_cases hpa : p a
    · simp [List.find?_cons, hpa, ha ▸ hpa]
    · have hqa : ¬ q a = true := by rw [← ha]; exact hpa
      simp only [List.find?_cons]
      have h1 : p a = false := by simpa using hpa
      have h2 : q a = false := by simpa using hqa
      rw [h1, h2]
      exact ih (fun x hx => h x (by simp [hx]))

/-- Growing the ring: the position selected on the grown ring is either
one of the new positions or exactly the position selected before. -/
theorem selPos_superset {l l' e : List Nat} (hl : l.Sorted (· ≤ ·))
    (hl' : l'.Sorted (· ≤ ·)) (hmem : ∀ x, x ∈ l' ↔ x ∈ l ∨ x ∈ e)
    (hne : l ≠ []) (h : Nat) :
    selPos l' h ∈ e ∨ selPos l' h = selPos l h := by
  have hne' : l' ≠ [] := by
    obtain ⟨a, t, rfl⟩ := List.exists_cons_of_ne_nil hne
    have : a ∈ l' := (hmem a).2 (Or.inl (by simp))
    exact List.ne_nil_of_mem this
  have hpmem : selPos l' h ∈ l' := selPos_mem h hne'
  by_cases hpe : selPos l' h ∈ e
  · exact Or.inl hpe
  · right
    have hpl : selPos l' h ∈ l := ((hmem _).1 hpmem).resolve_right hpe
    rcases hf' : l'.find? (fun x => h ≤ x) with _ | p
    · -- every position is below the key's hash: both sides wrap to the head
      have hall' := find?_none_all_lt hf'
      have hall : ∀ x ∈ l, x < h := fun x hx => hall' x ((hmem x).2 (Or.inl hx))
      have hf : l.find? (fun x => h ≤ x) = none := by
        rw [List.find?_eq_none]
        intro x hx
        simpa using Nat.not_le.2 (hall x hx)
      rw [selPos_eq_of_find?_none hf'] at hpl hpe ⊢
      rw [selPos_eq_of_find?_none hf]
      have h1 : l.headD 0 ≤ l'.headD 0 := headD_le_of_sorted hl hpl 0
      have h2 : l'.headD 0 ≤ l.headD 0 := by
        have : l.headD 0 ∈ l' := (hmem _).2 (Or.inl (by
          obtain ⟨a, t, rfl⟩ := List.exists_cons_of_ne_nil hne
          simp))
        exact headD_le_of_sorted hl' this 0
      exact le_antisymm h2 h1
    · rw [selPos_eq_of_find?_some hf'] at hpl hpe ⊢
      have hhp : h ≤ p := le_selPos_of_find?_some hf'
      obtain ⟨q, hfq⟩ : ∃ q, l.find? (fun x => h ≤ x) = some q := by
        rcases hq : l.find? (fun x => h ≤ x) with _ | q
        · exact absurd (find?_none_all_lt hq p hpl) (Nat.not_lt.2 hhp)
        · exact ⟨q, rfl⟩
      rw [selPos_eq_of_find?_some hfq]
      have hq_le_p : q ≤ p := find?_min_of_sorted hl hfq p hpl hhp
      have hq_mem : q ∈ l := List.mem_of_find?_eq_some hfq
      have hp_le_q : p ≤ q :=
        find?_min_of_sorted hl' hf' q ((hmem q).2 (Or.inl hq_mem))
          (le_selPos_of_find?_some hfq)
      exact le_antisymm hp_le_q hq_le_p

/-- Shrinking the ring: if the previously selected position survives,
the selection is unchanged. -/
theorem selPos_subset {l l' : List Nat} (hl : l.Sorted (· ≤ ·))
    (hl' : l'.Sorted (· ≤ ·)) (hsub : ∀ x ∈ l', x ∈ l) (h : Nat)
    (hp : selPos l h ∈ l') :
    selPos l' h = selPos l h := by
  have hne' : l' ≠ [] := List.ne_nil_of_mem hp
  rcases hf : l.find? (fun x => h ≤ x) with _ | p
  · have hall := find?_none_all_lt hf
    have hf' : l'.find? (fun x => h ≤ x) = none := by
      rw [List.find?_eq_none]
      intro x hx
      simpa using Nat.not_le.2 (hall x (hsub x hx))
    rw [selPos_eq_of_find?_none hf] at hp ⊢
    rw [selPos_eq_of_find?_none hf']
    have h1 : l.headD 0 ≤ l'.headD 0 :=
      headD_le_of_sorted hl (hsub _ (by
        obtain ⟨a, t, rfl⟩ := List.exists_cons_of_ne_nil hne'
        simp)) 0
    exact le_antisymm (headD_le_of_sorted hl' hp 0) h1
  · rw [selPos_eq_of_find?_some hf] at hp ⊢
    have hhp : h ≤ p := le_selPos_of_find?_some hf
    obtain ⟨q, hfq⟩ : ∃ q, l'.find? (fun x => h ≤ x) = some q := by
      rcases hq : l'.find? (fun x => h ≤ x) with _ | q
      · exact absurd (find?_none_all_lt hq p hp) (Nat.not_lt.2 hhp)
      · exact ⟨q, rfl⟩
    rw [selPos_eq_of_find?_some hfq]
    have hq_le_p : q ≤ p := find?_min_of_sorted hl' hfq p hp hhp
    have hp_le_q : p ≤ q :=
      find?_min_of_sorted hl hf q (hsub q (List.mem_of_find?_eq_some hfq))
        (le_selPos_of_find?_some hfq)
    exact le_antisymm hq_le_p hp_le_q

/-- Shrinking the ring past the selected position: searching the
shrunken ring for the key's hash and searching it for the vacated
position select the same surviving position (no surviving position lies
between the key's hash and the vacated position). -/
theorem selPos_shift {l l' : List Nat} (hl : l.Sorted (· ≤ ·))
    (hl' : l'.Sorted (· ≤ ·)) (hsub : ∀ x ∈ l', x ∈ l) (h : Nat)
    (hne' : l' ≠ []) :
    selPos l' h = selPos l' (selPos l h) := by
  rcases hf : l.find? (fun x => h ≤ x) with _ | p
  · -- wrap on the old ring: the old selection is the old minimum
    rw [selPos_eq_of_find?_none hf]
    have hall := find?_none_all_lt hf
    have hf' : l'.find? (fun x => h ≤ x) = none := by
      rw [List.find?_eq_none]
      intro x hx
      simpa using Nat.not_le.2 (hall x (hsub x hx))
    rw [selPos_eq_of_find?_none hf']
    obtain ⟨a, t, ht⟩ := List.exists_cons_of_ne_nil hne'
    subst ht
    have hle : l.headD 0 ≤ a := by
      simpa using headD_le_of_sorted hl (hsub a (by simp)) 0
    have hfa : (a :: t).find? (fun x => l.headD 0 ≤ x) = some a := by
      rw [List.find?_cons]
      simp [← List.headD_eq_head?_getD, hle]
    rw [selPos_eq_of_find?_some hfa]
    simp
  · rw [selPos_eq_of_find?_some hf]
    have hhp : h ≤ p := le_selPos_of_find?_some hf
    have hcong : ∀ x ∈ l', (decide (h ≤ x)) = (decide (p ≤ x)) := by
      intro x hx
      by_cases hpx : p ≤ x
      · simp [hpx, le_trans hhp hpx]
      · have : ¬ h ≤ x := fun hhx =>
          hpx (find?_min_of_sorted hl hf x (hsub x hx) hhx)
        simp [hpx, this]
    unfold selPos
    rw [find?_congr_mem hcong]

/-! ## Map-fold lemmas -/

theorem find?_filter_ne (t : List (Nat × String)) (k x : Nat) (hxk : ¬ x = k) :
    (t.filter (fun p => p.1 ≠ k)).find? (fun p => p.1 = x) =
      t.find? (fun p => p.1 = x) := by
  induction t with
  | nil => rfl
  | cons a t ih =>
    rw [List.filter_cons]
    by_cases hak : a.1 = k
    · rw [if_neg (by simpa using hak)]
      rw [ih, List.find?_cons]
      have hax : (decide (a.1 = x)) = false := by
        simp only [decide_eq_false_iff_not]
        intro h
        exact hxk (h ▸ hak)
      rw [hax]
    · rw [if_pos (by simpa using hak)]
      rw [List.find?_cons, List.find?_cons]
      rcases hax : (decide (a.1 = x)) with _ | _
      · exact ih
      · rfl

theorem find?_filter_self (m : List (Nat × String)) (x : Nat) :
    (m.filter (fun p => p.1 ≠ x)).find? (fun p => p.1 = x) = none := by
  rw [List.find?_eq_none]
  intro p hp
  have := (List.mem_filter.1 hp).2
  simpa using fun h => absurd h (by simpa using this)

theorem mlookup_mput (m : List (Nat × String)) (k x : Nat) (v : String) :
    mlookup (mput m k v) x = if x = k then v else mlookup m x := by
  unfold mlookup mput
  rw [List.find?_append]
  by_cases hxk : x = k
  · subst hxk
    rw [find?_filter_self]
    simp
  · rw [find?_filter_ne m k x hxk]
    have hsing : ([(k, v)] : List (Nat × String)).find? (fun p => p.1 = x) = none := by
      rw [List.find?_eq_none]
      intro p hp
      simp only [List.mem_singleton] at hp
      subst hp
      simpa using fun h => hxk h.symm
    rw [hsing]
    rcases hfx : m.find? (fun p => p.1 = x) with _ | p
    · simp [hxk]
    · simp [hxk]

theorem mlookup_foldl_mput (hs : List Nat) (m : List (Nat × String)) (v : String)
    (k : Nat) :
    mlookup (hs.foldl (fun m h => mput m h v) m) k =
      if k ∈ hs then v else mlookup m k := by
  induction hs generalizing m with
  | nil => simp
  | cons a t ih =>
    simp only [List.foldl_cons, ih, mlookup_mput, List.mem_cons]
    by_cases hkt : k ∈ t
    · simp [hkt]
    · by_cases hka : k = a
      · simp [hka, hkt]
      · simp [hka, hkt]

theorem mlookup_mdel (m : List (Nat × String)) (k x : Nat) :
    mlookup (mdel m k) x = if x = k then "" else mlookup m x := by
  unfold mlookup mdel
  by_cases hxk : x = k
  · subst hxk
    rw [find?_filter_self]
    simp
  · rw [find?_filter_ne m k x hxk]
    simp [hxk]

theorem mlookup_foldl_mdel (hs : List Nat) (m : List (Nat × String)) (k : Nat) :
    mlookup (hs.foldl (fun m h => mdel m h) m) k =
      if k ∈ hs then "" else mlookup m k := by
  induction hs generalizing m with
  | nil => simp
  | cons a t ih =>
    simp only [List.foldl_cons, ih, mlookup_mdel, List.mem_cons]
    by_cases hkt : k ∈ t
    · simp [hkt]
    · by_cases hka : k = a
      · simp [hka, hkt]
      · simp [hka, hkt]

theorem mem_keys_mdel (m : List (Nat × String)) (k x : Nat) :
    x ∈ (mdel m k).map (fun p => p.1) ↔ x ∈ m.map (fun p => p.1) ∧ x ≠ k := by
  unfold mdel
  simp only [List.mem_map, List.mem_filter]
  constructor
  · rintro ⟨p, ⟨hpm, hpk⟩, rfl⟩
    exact ⟨⟨p, hpm, rfl⟩, by simpa using hpk⟩
  · rintro ⟨⟨p, hpm, rfl⟩, hxk⟩
    exact ⟨p, ⟨hpm, by simpa using hxk⟩, rfl⟩

theorem mem_keys_foldl_mdel (hs : List Nat) (m : List (Nat × String)) (x : Nat) :
    x ∈ (hs.foldl (fun m h => mdel m h) m).map (fun p => p.1) ↔
      x ∈ m.map (fun p => p.1) ∧ x ∉ hs := by
  induction hs generalizing m with
  | nil => simp
  | cons a t ih =>
    simp only [List.foldl_cons, ih, mem_keys_mdel, List.mem_cons]
    constructor
    · rintro ⟨⟨hm, hxa⟩, hxt⟩
      exact ⟨hm, by rintro (rfl | h) <;> [exact hxa rfl; exact hxt h]⟩
    · rintro ⟨hm, hor⟩
      exact ⟨⟨hm, fun h => hor (Or.inl h)⟩, fun h => hor (Or.inr h)⟩

theorem mem_sortRing {l : List Nat} {x : Nat} :
    x ∈ l.insertionSort (· ≤ ·) ↔ x ∈ l :=
  (List.perm_insertionSort (· ≤ ·) l).mem_iff

theorem sorted_sortRing (l : List Nat) :
    (l.insertionSort (· ≤ ·)).Sorted (· ≤ ·) :=
  List.sorted_insertionSort (· ≤ ·) l

/-! ## Claim C1 -/

/-- **C1.** On a sorted ring, `Get(key)` returns the empty string when
the ring has no positions; otherwise it returns the node owning the
first (i.e. least) position that is `≥ hashKey(key)`, and wraps to the
position at index 0 when `hashKey(key)` is greater than every
position. -/
theorem get_returns_owner_of_first_ge_position (c : CH) (key : String)
    (hsort : c.ring.Sorted (· ≤ ·)) :
    (c.ring = [] → Get c key = "") ∧
    (∀ p ∈ c.ring, hashKey c.hasher key ≤ p →
      (∀ x ∈ c.ring, hashKey c.hasher key ≤ x → p ≤ x) →
      Get c key = mlookup c.hashMap p) ∧
    ((∀ x ∈ c.ring, x < hashKey c.hasher key) → c.ring ≠ [] →
      Get c key = mlookup c.hashMap (c.ring.getD 0 0)) := by
  refine ⟨?_, ?_, ?_⟩
  · intro hnil
    unfold Get
    rw [if_pos (by simp [hnil])]
  · intro p hp hhp hmin
    have hne : c.ring ≠ [] := List.ne_nil_of_mem hp
    rw [Get_eq_selPos c key hne]
    obtain ⟨q, hfq⟩ : ∃ q, c.ring.find? (fun x => hashKey c.hasher key ≤ x) = some q := by
      rcases hq : c.ring.find? (fun x => hashKey c.hasher key ≤ x) with _ | q
      · exact absurd (find?_none_all_lt hq p hp) (Nat.not_lt.2 hhp)
      · exact ⟨q, rfl⟩
    rw [selPos_eq_of_find?_some hfq]
    have h1 : q ≤ p := find?_min_of_sorted hsort hfq p hp hhp
    have h2 : p ≤ q :=
      hmin q (List.mem_of_find?_eq_some hfq) (le_selPos_of_find?_some hfq)
    rw [le_antisymm h1 h2]
  · intro hall hne
    rw [Get_eq_selPos c key hne]
    have hf : c.ring.find? (fun x => hashKey c.hasher key ≤ x) = none := by
      rw [List.find?_eq_none]
      intro x hx
      simpa using Nat.not_le.2 (hall x hx)
    rw [selPos_eq_of_find?_none hf, getD_zero_eq_headD]

/-- A hasher that reads the first byte of its input: virtual node
`"A-0"` lands at position 65 (`'A'`), `"B-0"` at 66, any short key at
the code of its first character. -/
def firstByteHasher : Hasher := fun bs => bs.headD 0

/-- A two-member example ring built by `Add` under `firstByteHasher`
with one virtual node per member: positions 65 (owner `"A"`) and 66
(owner `"B"`). -/
def exampleAB : CH := Add (New 1 firstByteHasher) ["A", "B"]

theorem get_returns_owner_of_first_ge_position_witness :
    (exampleAB.ring.Sorted (· ≤ ·)) ∧
    ((exampleAB.ring = [] → Get exampleAB "k" = "") ∧
     (∀ p ∈ exampleAB.ring, hashKey exampleAB.hasher "k" ≤ p →
       (∀ x ∈ exampleAB.ring, hashKey exampleAB.hasher "k" ≤ x → p ≤ x) →
       Get exampleAB "k" = mlookup exampleAB.hashMap p) ∧
     ((∀ x ∈ exampleAB.ring, x < hashKey exampleAB.hasher "k") →
       exampleAB.ring ≠ [] →
       Get exampleAB "k" = mlookup exampleAB.hashMap (exampleAB.ring.getD 0 0))) :=
  ⟨by decide, get_returns_owner_of_first_ge_position exampleAB "k" (by decide)⟩

/-! ## Claim C2 -/

/-- **C2.** Adding one node moves no key to any node other than the new
one: after `Add(m)`, every key's owner is either unchanged or the newly
added node `m`.  (In particular no key moves to more than one distinct
new owner as a result of the single call.)  Holds for every starting
state with a sorted ring — even in the presence of virtual-position
collisions. -/
theorem add_moves_keys_only_to_new_node (c : CH) (m key : String)
    (hsort : c.ring.Sorted (· ≤ ·)) :
    Get (Add c [m]) key = Get c key ∨ Get (Add c [m]) key = m := by
  by_cases hg : m ∈ c.members ∨ m = ""
  · left
    have hAdd : Add c [m] = c := by
      simp [Add, addNode, hg]
    rw [hAdd]
  · have hAdd : Add c [m] = addedState c m 1 := by
      simp [Add, addNode, hg]
    rw [hAdd]
    set h := hashKey c.hasher key with hh
    set hs := virtualHashes c.hasher m ((c.replicas * 1).toNat) with hhs
    have hring : (addedState c m 1).ring = (c.ring ++ hs).insertionSort (· ≤ ·) := rfl
    have hmap : (addedState c m 1).hashMap =
        hs.foldl (fun mp x => mput mp x m) c.hashMap := rfl
    have hhasher : (addedState c m 1).hasher = c.hasher := rfl
    have hsort' : (addedState c m 1).ring.Sorted (· ≤ ·) := by
      rw [hring]; exact sorted_sortRing _
    have hmem' : ∀ x, x ∈ (addedState c m 1).ring ↔ x ∈ c.ring ∨ x ∈ hs := by
      intro x
      rw [hring, mem_sortRing]
      simp
    by_cases hne' : (addedState c m 1).ring = []
    · -- the grown ring is empty, so the old ring is empty too
      have hnil : c.ring = [] := by
        rcases hq : c.ring with _ | ⟨a, t⟩
        · rfl
        · have : a ∈ (addedState c m 1).ring := (hmem' a).2 (Or.inl (by rw [hq]; simp))
          rw [hne'] at this
          simp at this
      left
      unfold Get
      rw [if_pos (by simp [hne']), if_pos (by simp [hnil])]
    · have hG' : Get (addedState c m 1) key =
          mlookup (addedState c m 1).hashMap (selPos (addedState c m 1).ring h) := by
        rw [Get_eq_selPos _ key hne', hhasher]
      by_cases hnil : c.ring = []
      · -- old ring empty: the selected position is one of the new hashes
        have hp : selPos (addedState c m 1).ring h ∈ hs := by
          have := selPos_mem h hne' (l := (addedState c m 1).ring)
          rcases (hmem' _).1 this with hc | he
          · rw [hnil] at hc; simp at hc
          · exact he
        right
        rw [hG', hmap, mlookup_foldl_mput, if_pos hp]
      · rcases selPos_superset hsort hsort' hmem' hnil h with hin | heq
        · right
          rw [hG', hmap, mlookup_foldl_mput, if_pos hin]
        · by_cases hinhs : selPos c.ring h ∈ hs
          · right
            rw [hG', hmap, heq, mlookup_foldl_mput, if_pos hinhs]
          · left
            rw [hG', hmap, heq, mlookup_foldl_mput, if_neg hinhs,
              Get_eq_selPos c key hnil]

theorem add_moves_keys_only_to_new_node_witness :
    (exampleAB.ring.Sorted (· ≤ ·)) ∧
    (Get (Add exampleAB ["C"]) "k" = Get exampleAB "k" ∨
     Get (Add exampleAB ["C"]) "k" = "C") :=
  ⟨by decide, add_moves_keys_only_to_new_node exampleAB "C" "k" (by decide)⟩

/-! ## Claim C6 -/

theorem addNode_ok_eq {c c' : CH} {m : String} {w : Int}
    (h : addNode c m w = .ok c') : c' = addedState c m w := by
  unfold addNode at h
  by_cases h1 : w ≤ 0
  · rw [if_pos h1] at h
    exact absurd h (by simp)
  · rw [if_neg h1] at h
    by_cases hg : m ∈ c.members ∨ m = ""
    · rw [if_pos hg] at h
      exact absurd h (by simp)
    · rw [if_neg hg] at h
      exact (Except.ok.injEq _ _ ▸ h).symm

theorem sorted_Add (ms : List String) (c : CH) (h : c.ring.Sorted (· ≤ ·)) :
    (Add c ms).ring.Sorted (· ≤ ·) := by
  induction ms generalizing c with
  | nil => simpa [Add] using h
  | cons m ms ih =>
    have hstep : ∀ c : CH, c.ring.Sorted (· ≤ ·) →
        ((match addNode c m 1 with | .ok c' => c' | .error _ => c)).ring.Sorted (· ≤ ·) := by
      intro c hc
      rcases haddr : addNode c m 1 with e | c'
      · simpa using hc
      · rw [addNode_ok_eq haddr]
        exact sorted_sortRing _
    have : Add c (m :: ms) =
        Add ((match addNode c m 1 with | .ok c' => c' | .error _ => c)) ms := by
      simp [Add]
    rw [this]
    exact ih _ (hstep c h)

theorem sorted_Remove (ms : List String) (c : CH) (h : c.ring.Sorted (· ≤ ·)) :
    (Remove c ms).ring.Sorted (· ≤ ·) := by
  induction ms generalizing c with
  | nil => simpa [Remove] using h
  | cons m ms ih =>
    have hstep : (removeNode c m).ring.Sorted (· ≤ ·) := by
      unfold removeNode
      by_cases hg : m ∉ c.members ∨ m = ""
      · rw [if_pos hg]; exact h
      · rw [if_neg hg]; exact sorted_sortRing _
    have : Remove c (m :: ms) = Remove (removeNode c m) ms := by
      simp [Remove]
    rw [this]
    exact ih _ hstep

/-- **C6.** The position sequence is ascending-sorted after every
completed operation: a freshly built ring is sorted, and for every
state whose ring is sorted, `Add`, `Remove` and `AddWithWeight`
(successful or not) yield a sorted ring — so the binary search in
`Get`/`GetN` only ever runs on sorted sequences. -/
theorem ring_sorted_after_every_operation (c : CH) (ms rs : List String)
    (m : String) (w r : Int) (hf : Hasher)
    (hsort : c.ring.Sorted (· ≤ ·)) :
    (New r hf).ring.Sorted (· ≤ ·) ∧
    (Add c ms).ring.Sorted (· ≤ ·) ∧
    (Remove c rs).ring.Sorted (· ≤ ·) ∧
    (AddWithWeightState c m w).1.ring.Sorted (· ≤ ·) := by
  refine ⟨by simp [New], sorted_Add ms c hsort, sorted_Remove rs c hsort, ?_⟩
  unfold AddWithWeightState
  rcases haddr : addNode c m w with e | c'
  · simpa using hsort
  · rw [addNode_ok_eq haddr]
    exact sorted_sortRing _

theorem ring_sorted_after_every_operation_witness :
    (exampleAB.ring.Sorted (· ≤ ·)) ∧
    ((New 3 firstByteHasher).ring.Sorted (· ≤ ·) ∧
     (Add exampleAB ["C", "D"]).ring.Sorted (· ≤ ·) ∧
     (Remove exampleAB ["A"]).ring.Sorted (· ≤ ·) ∧
     (AddWithWeightState exampleAB "E" 2).1.ring.Sorted (· ≤ ·)) :=
  ⟨by decide,
    ring_sorted_after_every_operation exampleAB ["C", "D"] ["A"] "E" 2 3
      firstByteHasher (by decide)⟩

/-! ## Claim C5 -/

/-- **C5.** `AddWithWeight` returns an error — never a panic, modelled
by the total function `AddWithWeightState` — when `weight ≤ 0`, and
returns the error `member already exists or empty` when (the weight
check having passed) the name is empty or already present; in every
error case the whole state, and with it the ring, weight table,
position table and node set, is left unchanged. -/
theorem addWithWeight_error_cases (c : CH) (m : String) (w : Int) :
    (w ≤ 0 → AddWithWeightState c m w = (c, some "weight must be positive")) ∧
    (0 < w → (m = "" ∨ m ∈ c.members) →
      AddWithWeightState c m w = (c, some "member already exists or empty")) ∧
    (∀ e, (AddWithWeightState c m w).2 = some e →
      (AddWithWeightState c m w).1 = c) := by
  refine ⟨?_, ?_, ?_⟩
  · intro hw
    unfold AddWithWeightState addNode
    rw [if_pos hw]
  · intro hw hg
    unfold AddWithWeightState addNode
    rw [if_neg (Int.not_le.2 hw), if_pos (Or.symm hg)]
  · intro e
    unfold AddWithWeightState
    rcases haddr : addNode c m w with e' | c' <;> simp

theorem addWithWeight_error_cases_witness :
    ((0 : Int) ≤ 0 ∧
      AddWithWeightState exampleAB "A" 0 =
        (exampleAB, some "weight must be positive")) ∧
    ((0 : Int) < 2 ∧ ("A" = "" ∨ "A" ∈ exampleAB.members) ∧
      AddWithWeightState exampleAB "A" 2 =
        (exampleAB, some "member already exists or empty")) :=
  ⟨⟨le_refl 0, (addWithWeight_error_cases exampleAB "A" 0).1 (le_refl 0)⟩,
   ⟨by decide, Or.inr (by decide),
     (addWithWeight_error_cases exampleAB "A" 2).2.1 (by decide)
       (Or.inr (by decide))⟩⟩

/-! ## Claim C4 -/

/-- A hasher on which every input collides at position 5. -/
def collidingHasher : Hasher := fun _ => 5

/-- A reachable state with two members whose single virtual nodes
collide: `Add("A")` then `Add("B")` under `collidingHasher` with one
virtual node per member.  The ring is `[5, 5]` but the position table
maps position 5 to `"B"` alone — `"A"` owns no position. -/
def collidedAB : CH := Add (New 1 collidingHasher) ["A", "B"]

/-- **C4 failing input.** On `collidedAB` (two members, but only `"B"`
reachable on the ring) the walk in `GetN("k", 2)` keeps cycling without
ever collecting a second distinct member: for every fuel bound the loop
is still running, i.e. the Go call never returns.  This contradicts the
claim (and the specification) that `GetN` terminates and returns
`min(n, distinct-node-count)` names. -/
theorem getN_walk_never_terminates :
    collidedAB.members.length = 2 ∧
    ∀ fuel, GetNFuel collidedAB "k" 2 fuel = none := by
  have aux : ∀ f, getNLoop collidedAB 2 f 0 ["B"] = none ∧
      getNLoop collidedAB 2 f 1 ["B"] = none := by
    intro f
    induction f with
    | zero => exact ⟨rfl, rfl⟩
    | succ f ih => exact ⟨ih.2, ih.1⟩
  refine ⟨rfl, ?_⟩
  intro fuel
  cases fuel with
  | zero => rfl
  | succ f => exact (aux f).2

/-! ## Claim C7 -/

/-- A hasher returning the length of its input (all padded short keys
therefore collide at 64, which is harmless with a single member). -/
def lengthHasher : Hasher := fun bs => bs.length

/-- `Add("X")` with one base replica: one virtual position 64. -/
def exampleX : CH := Add (New 1 lengthHasher) ["X"]

/-- Lower the base replica count to 0 after the add, then `Remove("X")`. -/
def exampleXRemoved : CH := Remove (SetVirtualReplicas exampleX 0) ["X"]

/-- **C7 failing input.** `Remove` computes the number of virtual
positions to delete from the *current* base replica count, not the one
in force when the node was added: after `SetVirtualReplicas(0)`,
`Remove("X")` deletes the member and its weight but zero positions, so
position 64 still maps to the departed `"X"` and lookups still return
it — contradicting the claim that afterwards no position maps to `X`. -/
theorem remove_uses_current_replica_count :
    exampleXRemoved.members = [] ∧
    exampleXRemoved.ring = [64] ∧
    mlookup exampleXRemoved.hashMap 64 = "X" ∧
    Get exampleXRemoved "k" = "X" := by
  refine ⟨rfl, rfl, rfl, rfl⟩

/-! ## Claim C9 -/

/-- **C9 failing input.** On a ring with no nodes, `GetStats` does
return zero node counts and empty weight/load maps, but its average
weight is the `float64` division `0.0/0.0` — NaN, modelled `none` —
rather than the zero (a finite number) the claim and the documented
convention require; the first revision of the file guarded this
division, the current one does not. -/
theorem getStats_empty_ring_average_is_nan (r : Int) (hf : Hasher) :
    GetStats (New r hf) =
      ⟨0, 0, none, [], []⟩ := rfl

/-! ## Claim C10 -/

/-- **C10 failing input.** The zero-padded 64-byte buffer is *not*
behaviorally neutral: for the deterministic hasher that returns its
input's length, the 1-byte key `"a"` hashes through `hashKey` to 64
(the whole padded buffer is hashed), while hashing its raw bytes
directly gives 1.  The claim that the short-key buffer handling never
changes `hashKey`'s (hence `Get`'s) result is false on the code; the
code's own comment presents the buffer as a pure allocation
optimization. -/
theorem short_key_padding_changes_hash :
    hashKey lengthHasher "a" = 64 ∧
    lengthHasher (strBytes "a") = 1 ∧
    hashKey lengthHasher "a" ≠ lengthHasher (strBytes "a") :=
  ⟨rfl, rfl, by decide⟩

/-! ## Claim C3 -/

/-- The virtual hashes `Remove` recomputes and deletes for a member:
`Replicas × weight` of them, with the current base replica count. -/
def removalHashes (c : CH) (member : String) : List Nat :=
  virtualHashes c.hasher member ((c.replicas * wlookup c.weights member).toNat)

/-- Ring/position-table consistency: the ring is sorted and carries
exactly the table's keys.  (Maintained by the operations when no two
virtual nodes hash to the same position.) -/
@[reducible] def WF (c : CH) : Prop :=
  c.ring.Sorted (· ≤ ·) ∧
  (∀ x ∈ c.ring, x ∈ c.hashMap.map (fun p => p.1)) ∧
  (∀ x ∈ c.hashMap.map (fun p => p.1), x ∈ c.ring)

/-- **C3 counterexample.**  In the reachable state `collidedAB`
(both members' single virtual nodes collide at position 5, which the
table assigns to `"B"`), the key `"k"` is owned by `"B"`, not by
`"A"` — yet `Remove("A")` deletes position 5 (it is one of `"A"`'s
recomputed virtual hashes) and afterwards `Get("k")` returns `""`.
A key that the removed node did *not* own changed owner, refuting the
claim as stated. -/
theorem remove_moves_unowned_key_on_collision :
    Get collidedAB "k" = "B" ∧ ("B" : String) ≠ "A" ∧
    Get (Remove collidedAB ["A"]) "k" = "" ∧ ("" : String) ≠ "B" :=
  ⟨rfl, by decide, rfl, by decide⟩

/-- **C3 (amended).** For a state whose ring and position table are
consistent (`WF`) and where the removed node `X`'s recomputed virtual
hashes are exactly the positions the table assigns to `X` (true
whenever no positions collide and the base replica count did not change
since `X` was added): after `Remove(X)`, a key not owned by `X` keeps
its owner, and a key owned by `X` is reassigned to the owner of the
next position clockwise from the vacated position that previously owned
it (provided a position remains). -/
theorem remove_reassigns_only_removed_nodes_keys (c : CH) (X key : String)
    (hWF : WF c) (hX : X ∈ c.members) (hXne : X ≠ "")
    (hcov : ∀ p ∈ c.hashMap.map (fun q => q.1),
      (p ∈ removalHashes c X ↔ mlookup c.hashMap p = X)) :
    (Get c key ≠ X → Get (Remove c [X]) key = Get c key) ∧
    (Get c key = X → (Remove c [X]).ring ≠ [] →
      Get (Remove c [X]) key =
        mlookup (Remove c [X]).hashMap
          (selPos (Remove c [X]).ring (selPos c.ring (hashKey c.hasher key)))) := by
  obtain ⟨hsort, hrk, hkr⟩ := hWF
  have hrm : Remove c [X] = removedState c X := by
    simp [Remove, removeNode, hX, hXne]
  set h := hashKey c.hasher key with hdef
  set hsX := removalHashes c X with hsXdef
  have hmap' : (removedState c X).hashMap =
      hsX.foldl (fun m x => mdel m x) c.hashMap := rfl
  have hring' : (removedState c X).ring =
      (((hsX.foldl (fun m x => mdel m x) c.hashMap).map (fun p => p.1)).insertionSort
        (· ≤ ·)) := rfl
  have hhasher' : (removedState c X).hasher = c.hasher := rfl
  have hsort' : (removedState c X).ring.Sorted (· ≤ ·) := by
    rw [hring']; exact sorted_sortRing _
  have hmem' : ∀ x, x ∈ (removedState c X).ring ↔
      x ∈ c.hashMap.map (fun p => p.1) ∧ x ∉ hsX := by
    intro x
    rw [hring', mem_sortRing, mem_keys_foldl_mdel]
  have hsub : ∀ x ∈ (removedState c X).ring, x ∈ c.ring := by
    intro x hx
    exact hkr x ((hmem' x).1 hx).1
  have hlook' : ∀ q, mlookup (removedState c X).hashMap q =
      if q ∈ hsX then "" else mlookup c.hashMap q := by
    intro q
    rw [hmap', mlookup_foldl_mdel]
  constructor
  · intro hne_get
    by_cases hnil : c.ring = []
    · have hempty : (removedState c X).ring = [] := by
        rw [List.eq_nil_iff_forall_not_mem]
        intro x hx
        have := hkr x ((hmem' x).1 hx).1
        rw [hnil] at this
        simp at this
      rw [hrm]
      unfold Get
      rw [if_pos (by simp [hempty]), if_pos (by simp [hnil])]
    · have hG : Get c key = mlookup c.hashMap (selPos c.ring h) :=
        Get_eq_selPos c key hnil
      have hpring : selPos c.ring h ∈ c.ring := selPos_mem h hnil
      have hpkeys : selPos c.ring h ∈ c.hashMap.map (fun p => p.1) :=
        hrk _ hpring
      have howner : mlookup c.hashMap (selPos c.ring h) ≠ X := by
        rw [hG] at hne_get
        exact hne_get
      have hpnot : selPos c.ring h ∉ hsX :=
        fun hin => howner ((hcov _ hpkeys).1 hin)
      have hpring' : selPos c.ring h ∈ (removedState c X).ring :=
        (hmem' _).2 ⟨hpkeys, hpnot⟩
      have hne' : (removedState c X).ring ≠ [] := List.ne_nil_of_mem hpring'
      have hsel : selPos (removedState c X).ring h = selPos c.ring h :=
        selPos_subset hsort hsort' hsub h hpring'
      rw [hrm, Get_eq_selPos _ key hne', hhasher', ← hdef, hsel, hlook',
        if_neg hpnot, hG]
  · intro hget hne'
    rw [hrm] at hne'
    have hnil : c.ring ≠ [] := by
      intro h0
      have : Get c key = "" := by
        unfold Get
        rw [if_pos (by simp [h0])]
      exact hXne (hget ▸ this ▸ rfl)
    have hG : Get c key = mlookup c.hashMap (selPos c.ring h) :=
      Get_eq_selPos c key hnil
    have hsel : selPos (removedState c X).ring h =
        selPos (removedState c X).ring (selPos c.ring h) :=
      selPos_shift hsort hsort' hsub h hne'
    rw [hrm, Get_eq_selPos _ key hne', hhasher', ← hdef, hsel]

theorem remove_reassigns_only_removed_nodes_keys_witness :
    (WF exampleAB ∧ "A" ∈ exampleAB.members ∧ "A" ≠ "" ∧
      ∀ p ∈ exampleAB.hashMap.map (fun q => q.1),
        (p ∈ removalHashes exampleAB "A" ↔ mlookup exampleAB.hashMap p = "A")) ∧
    ((Get exampleAB "k" ≠ "A" →
        Get (Remove exampleAB ["A"]) "k" = Get exampleAB "k") ∧
     (Get exampleAB "k" = "A" → (Remove exampleAB ["A"]).ring ≠ [] →
        Get (Remove exampleAB ["A"]) "k" =
          mlookup (Remove exampleAB ["A"]).hashMap
            (selPos (Remove exampleAB ["A"]).ring
              (selPos exampleAB.ring (hashKey exampleAB.hasher "k"))))) :=
  ⟨⟨by decide, by decide, by decide, by decide⟩,
   remove_reassigns_only_removed_nodes_keys exampleAB "A" "k"
     (by decide) (by decide) (by decide) (by decide)⟩

/-! ## Claim C8: arc sums -/

/-- The last element of `a :: t`. -/
def lastOf (a : Nat) (t : List Nat) : Nat :=
  match t with
  | [] => a
  | b :: t => lastOf b t

theorem lastOf_mem (a : Nat) (t : List Nat) : lastOf a t ∈ a :: t := by
  induction t generalizing a with
  | nil => simp [lastOf]
  | cons b t ih =>
    have hstep : lastOf a (b :: t) = lastOf b t := rfl
    rw [hstep]
    rcases List.mem_cons.1 (ih b) with h | h
    · simp [h]
    · simp [h]

theorem le_lastOf (a : Nat) (t : List Nat) (hs : (a :: t).Sorted (· < ·)) :
    a ≤ lastOf a t := by
  induction t generalizing a with
  | nil => exact le_refl a
  | cons b t ih =>
    have hab : a < b := (List.sorted_cons.1 hs).1 b (by simp)
    have hstep : lastOf a (b :: t) = lastOf b t := rfl
    rw [hstep]
    exact le_trans (le_of_lt hab) (ih b (List.sorted_cons.1 hs).2)

/-- The telescoping arc sum along a strictly ascending run, closed at
an arbitrary final position `w`. -/
theorem arcs_telescope (t : List Nat) : ∀ a w : Nat, (a :: t).Sorted (· < ·) →
    (((a :: t).zip (t ++ [w])).map (fun pr => portionOf pr.1 pr.2)).sum
      = (lastOf a t - a) + portionOf (lastOf a t) w := by
  induction t with
  | nil =>
    intro a w _
    simp [lastOf]
  | cons b t ih =>
    intro a w hs
    have hab : a < b := (List.sorted_cons.1 hs).1 b (by simp)
    have hs' : (b :: t).Sorted (· < ·) := (List.sorted_cons.1 hs).2
    have hzip : ((a :: b :: t).zip ((b :: t) ++ [w])) =
        (a, b) :: ((b :: t).zip (t ++ [w])) := rfl
    rw [hzip, List.map_cons, List.sum_cons, ih b w hs']
    have hport : portionOf a b = b - a := by
      unfold portionOf
      rw [if_pos hab]
    have hlast : lastOf a (b :: t) = lastOf b t := rfl
    rw [hport, hlast]
    have hbl : b ≤ lastOf b t := le_lastOf b t hs'
    omega

/-- The raw (integer) arcs of a duplicate-free sorted ring cover the
position space exactly once: they sum to `2^32 − 1`. -/
theorem ringPairs_portion_sum (c : CH) (hs : c.ring.Sorted (· < ·))
    (hne : c.ring ≠ []) (hb : ∀ x ∈ c.ring, x ≤ maxU) :
    ((ringPairs c).map (fun pr => portionOf pr.1 pr.2)).sum = maxU := by
  obtain ⟨a, t, hat⟩ := List.exists_cons_of_ne_nil hne
  have hs' : (a :: t).Sorted (· < ·) := hat ▸ hs
  have hb' : ∀ x ∈ a :: t, x ≤ maxU := fun x hx => hb x (hat.symm ▸ hx)
  have hrot : (a :: t).rotate 1 = t ++ [a] := by
    rw [List.rotate_cons_succ, List.rotate_zero]
  unfold ringPairs
  rw [hat, hrot, arcs_telescope t a a hs']
  have hL : lastOf a t ≤ maxU := hb' _ (lastOf_mem a t)
  have haL : a ≤ lastOf a t := le_lastOf a t hs'
  have hport : portionOf (lastOf a t) a = maxU - lastOf a t + a := by
    unfold portionOf
    rw [if_neg (by omega)]
  omega

theorem sum_map_pct (xs : List (Nat × Nat)) :
    (xs.map pctOf).sum =
      (((xs.map (fun pr => portionOf pr.1 pr.2)).sum : ℚ) / (maxU : ℚ)) * 100 := by
  induction xs with
  | nil => simp
  | cons x xs ih =>
    simp only [List.map_cons, List.sum_cons, ih, pctOf]
    push_cast
    ring

/-! ## Claim C8: partition of the pair list by owner -/

theorem sum_map_add_distrib {α : Type} (l : List α) (f g : α → ℚ) :
    (l.map (fun x => f x + g x)).sum = (l.map f).sum + (l.map g).sum := by
  induction l with
  | nil => simp
  | cons a l ih =>
    simp only [List.map_cons, List.sum_cons, ih]
    ring

theorem sum_indicator_zero (ms : List String) (k : String) (v : ℚ)
    (hk : k ∉ ms) : (ms.map (fun m => if k = m then v else 0)).sum = 0 := by
  induction ms with
  | nil => rfl
  | cons m ms ih =>
    have h1 : ¬ k = m := fun h => hk (by simp [h])
    simp [h1, ih (fun h => hk (by simp [h]))]

theorem sum_indicator (ms : List String) (k : String) (v : ℚ)
    (hnd : ms.Nodup) (hk : k ∈ ms) :
    (ms.map (fun m => if k = m then v else 0)).sum = v := by
  induction ms with
  | nil => simp at hk
  | cons m ms ih =>
    rcases List.mem_cons.1 hk with rfl | hkm
    · have hout : k ∉ ms := (List.nodup_cons.1 hnd).1
      simp [sum_indicator_zero ms k v hout]
    · have h1 : ¬ k = m := by
        rintro rfl
        exact (List.nodup_cons.1 hnd).1 hkm
      simp [h1, ih (List.nodup_cons.1 hnd).2 hkm]

theorem sum_over_members_partition (xs : List (Nat × Nat)) (ms : List String)
    (own : Nat × Nat → String) (f : Nat × Nat → ℚ) (hnd : ms.Nodup)
    (hcov : ∀ x ∈ xs, own x ∈ ms) :
    (ms.map (fun m => ((xs.filter (fun x => own x = m)).map f).sum)).sum
      = (xs.map f).sum := by
  induction xs with
  | nil => simp
  | cons x xs ih =>
    have hx : own x ∈ ms := hcov x (by simp)
    have hstep : ∀ m : String,
        ((List.filter (fun y => own y = m) (x :: xs)).map f).sum
          = (if own x = m then f x else 0)
            + ((xs.filter (fun y => own y = m)).map f).sum := by
      intro m
      rw [List.filter_cons]
      by_cases h : own x = m
      · rw [if_pos (by simpa using h), if_pos h]
        simp
      · rw [if_neg (by simpa using h), if_neg h]
        simp
    simp only [hstep]
    rw [sum_map_add_distrib, sum_indicator ms (own x) (f x) hnd hx,
      ih (fun y hy => hcov y (by simp [hy]))]
    simp

/-! ## Claim C8: the load-accumulation fold -/

theorem addLoad_present (d : List (String × ℚ)) (k : String) (v : ℚ)
    (hk : k ∈ d.map (fun p => p.1)) :
    addLoad d k v = d.map (fun p => if p.1 = k then (p.1, p.2 + v) else p) := by
  unfold addLoad
  have hany : d.any (fun p => p.1 = k) = true := by
    rw [List.any_eq_true]
    obtain ⟨p, hp, hpk⟩ := List.mem_map.1 hk
    exact ⟨p, hp, by simpa using hpk⟩
  rw [if_pos hany]

theorem keys_map_update (d : List (String × ℚ)) (k : String) (v : ℚ) :
    (d.map (fun p => if p.1 = k then (p.1, p.2 + v) else p)).map (fun p => p.1)
      = d.map (fun p => p.1) := by
  rw [List.map_map]
  apply List.map_congr_left
  intro p _
  by_cases h : p.1 = k <;> simp [h]

theorem foldl_addLoad_eq (xs : List (Nat × Nat)) (own : Nat × Nat → String)
    (f : Nat × Nat → ℚ) :
    ∀ d : List (String × ℚ), (∀ x ∈ xs, own x ∈ d.map (fun p => p.1)) →
    xs.foldl (fun acc x => addLoad acc (own x) (f x)) d
      = d.map (fun p =>
          (p.1, p.2 + ((xs.filter (fun x => own x = p.1)).map f).sum)) := by
  induction xs with
  | nil =>
    intro d _
    simp
  | cons x xs ih =>
    intro d hcov
    have hx : own x ∈ d.map (fun p => p.1) := hcov x (by simp)
    rw [List.foldl_cons, addLoad_present d (own x) (f x) hx,
      ih _ (by
        intro y hy
        rw [keys_map_update]
        exact hcov y (by simp [hy])),
      List.map_map]
    apply List.map_congr_left
    intro p _
    simp only [Function.comp]
    by_cases h : p.1 = own x
    · have hfil : List.filter (fun y => own y = p.1) (x :: xs) =
          x :: xs.filter (fun y => own y = p.1) := by
        rw [List.filter_cons, if_pos (by simpa using h.symm)]
      simp only [hfil, if_pos h, List.map_cons, List.sum_cons]
      simp [add_assoc]
    · have hfil : List.filter (fun y => own y = p.1) (x :: xs) =
          xs.filter (fun y => own y = p.1) := by
        rw [List.filter_cons, if_neg (by simpa using fun hh => h (Eq.symm hh))]
      simp only [hfil, if_neg h]

/-! ## Claim C8: rounding bounds -/

theorem round4_close (x : ℚ) : |round4 x - x| ≤ 1 / 20000 := by
  unfold round4
  have h2 : (round (x * 10000) : ℚ) / 10000 - x
      = ((round (x * 10000) : ℚ) - x * 10000) / 10000 := by ring
  rw [h2, abs_div]
  have habs : |(10000 : ℚ)| = 10000 := by norm_num
  rw [habs, div_le_iff₀ (by norm_num : (0:ℚ) < 10000)]
  calc |(round (x * 10000) : ℚ) - x * 10000|
      = |x * 10000 - (round (x * 10000) : ℚ)| := abs_sub_comm _ _
    _ ≤ 1 / 2 := abs_sub_round _
    _ = 1 / 20000 * 10000 := by norm_num

theorem abs_sum_sub_le (ms : List String) (F G : String → ℚ) (ε : ℚ)
    (h : ∀ m ∈ ms, |F m - G m| ≤ ε) :
    |(ms.map F).sum - (ms.map G).sum| ≤ (ms.length : ℚ) * ε := by
  induction ms with
  | nil => simp
  | cons m ms ih =>
    simp only [List.map_cons, List.sum_cons, List.length_cons]
    have h1 : |F m - G m| ≤ ε := h m (by simp)
    have h2 := ih (fun x hx => h x (by simp [hx]))
    have h3 : |F m + (ms.map F).sum - (G m + (ms.map G).sum)|
        ≤ ε + (ms.length : ℚ) * ε := by
      calc |F m + (ms.map F).sum - (G m + (ms.map G).sum)|
          = |(F m - G m) + ((ms.map F).sum - (ms.map G).sum)| := by ring_nf
        _ ≤ |F m - G m| + |(ms.map F).sum - (ms.map G).sum| := abs_add _ _
        _ ≤ ε + (ms.length : ℚ) * ε := add_le_add h1 h2
    calc |F m + (ms.map F).sum - (G m + (ms.map G).sum)|
        ≤ ε + (ms.length : ℚ) * ε := h3
      _ = ((ms.length : ℚ) + 1) * ε := by ring
      _ = (((ms.length : Nat) + 1 : Nat) : ℚ) * ε := by push_cast; ring

theorem getStats_loadDistribution (c : CH) (hne : c.ring ≠ []) :
    (GetStats c).loadDistribution =
      ((ringPairs c).foldl
        (fun d pr => addLoad d (mlookup c.hashMap pr.1) (pctOf pr))
        (c.members.map (fun m => (m, (0 : ℚ))))).map
        (fun p => (p.1, round4 p.2)) := by
  have hlen : ¬ c.ring.length = 0 := fun h0 => hne (List.length_eq_zero.1 h0)
  simp only [GetStats]
  rw [if_neg hlen]

/-- **C8 counterexample.** In the reachable state `collidedAB` the ring
holds the duplicate positions `[5, 5]`, so both consecutive arcs are
classified as wrapping (`end ≤ start`) and each contributes the whole
position space: the load table reads 0% for `"A"` and 200% for `"B"`,
and the per-node percentages sum to 200 — not ≈100 within the rounding
tolerance — refuting the claim for arbitrary non-empty ring states. -/
theorem getStats_load_sum_200_on_collision :
    ((GetStats collidedAB).loadDistribution.map (fun p => p.2)).sum = 200 ∧
    ¬ |((GetStats collidedAB).loadDistribution.map (fun p => p.2)).sum - 100|
        ≤ (collidedAB.members.length : ℚ) / 20000 := by
  have hpct : pctOf (5, 5) = 100 := by
    unfold pctOf portionOf maxU
    norm_num
  have hld : ((GetStats collidedAB).loadDistribution.map (fun p => p.2)).sum
      = round4 0 + (round4 (0 + pctOf (5, 5) + pctOf (5, 5)) + 0) := by
    rw [getStats_loadDistribution collidedAB (by decide)]
    rfl
  have hr0 : round4 (0 : ℚ) = 0 := by
    unfold round4
    norm_num
  have hr200 : round4 (200 : ℚ) = 200 := by
    unfold round4
    have h1 : ((200 : ℚ)) * 10000 = ((2000000 : ℤ) : ℚ) := by norm_num
    rw [h1, round_intCast]
    norm_num
  have harg : (0 : ℚ) + pctOf (5, 5) + pctOf (5, 5) = 200 := by
    rw [hpct]
    norm_num
  have hsum : ((GetStats collidedAB).loadDistribution.map (fun p => p.2)).sum = 200 := by
    rw [hld, harg, hr0, hr200]
    norm_num
  refine ⟨hsum, ?_⟩
  rw [hsum]
  have hlen : collidedAB.members.length = 2 := rfl
  rw [hlen]
  norm_num

/-- **C8 (amended).** For a non-empty ring whose position sequence is
strictly ascending (sorted and duplicate-free, as when no virtual nodes
collide), with positions in the 32-bit space and every position's owner
in the duplicate-free member set: (i) the unrounded arc percentages —
arc `end − start`, wrap `(2^32−1) − start + end`, over the space
`2^32 − 1` — sum to exactly 100; (ii) `GetStats` assigns each node the
rounded (4 decimal places) sum of the percentages of the arcs its
positions own; (iii) the reported percentages sum to 100 within the
rounding tolerance of half a unit in the fourth decimal place per
node. -/
theorem getStats_load_sums_to_100 (c : CH)
    (hsort : c.ring.Sorted (· < ·)) (hne : c.ring ≠ [])
    (hb : ∀ x ∈ c.ring, x ≤ maxU)
    (hown : ∀ pr ∈ ringPairs c, mlookup c.hashMap pr.1 ∈ c.members)
    (hnd : c.members.Nodup) :
    ((ringPairs c).map pctOf).sum = 100 ∧
    (GetStats c).loadDistribution =
      c.members.map (fun m =>
        (m, round4 (((ringPairs c).filter
          (fun pr => mlookup c.hashMap pr.1 = m)).map pctOf).sum)) ∧
    |((GetStats c).loadDistribution.map (fun p => p.2)).sum - 100| ≤
      (c.members.length : ℚ) / 20000 := by
  have hmaxq : ((maxU : Nat) : ℚ) ≠ 0 := by norm_num [maxU]
  have hsum : ((ringPairs c).map pctOf).sum = 100 := by
    rw [sum_map_pct, ringPairs_portion_sum c hsort hne hb]
    field_simp
  have hbasekeys :
      (c.members.map (fun m => (m, (0 : ℚ)))).map (fun p => p.1) = c.members := by
    induction c.members with
    | nil => rfl
    | cons a t ih =>
      simp only [List.map_cons]
      rw [ih]
  have hLD : (GetStats c).loadDistribution =
      c.members.map (fun m =>
        (m, round4 (((ringPairs c).filter
          (fun pr => mlookup c.hashMap pr.1 = m)).map pctOf).sum)) := by
    rw [getStats_loadDistribution c hne,
      foldl_addLoad_eq (ringPairs c) (fun pr => mlookup c.hashMap pr.1) pctOf
        (c.members.map (fun m => (m, (0 : ℚ))))
        (by rw [hbasekeys]; exact hown),
      List.map_map, List.map_map]
    apply List.map_congr_left
    intro m _
    simp
  refine ⟨hsum, hLD, ?_⟩
  have hpart :
      (c.members.map (fun m => (((ringPairs c).filter
        (fun pr => mlookup c.hashMap pr.1 = m)).map pctOf).sum)).sum = 100 := by
    rw [sum_over_members_partition (ringPairs c) c.members
      (fun pr => mlookup c.hashMap pr.1) pctOf hnd hown, hsum]
  rw [hLD, List.map_map]
  have hcomp :
      (c.members.map ((fun p : String × ℚ => p.2) ∘ (fun m =>
        (m, round4 (((ringPairs c).filter
          (fun pr => mlookup c.hashMap pr.1 = m)).map pctOf).sum)))) =
      c.members.map (fun m => round4 (((ringPairs c).filter
        (fun pr => mlookup c.hashMap pr.1 = m)).map pctOf).sum) := rfl
  rw [hcomp, ← hpart]
  have hbd := abs_sum_sub_le c.members
    (fun m => round4 (((ringPairs c).filter
      (fun pr => mlookup c.hashMap pr.1 = m)).map pctOf).sum)
    (fun m => (((ringPairs c).filter
      (fun pr => mlookup c.hashMap pr.1 = m)).map pctOf).sum)
    (1 / 20000) (fun m _ => round4_close _)
  calc |(c.members.map (fun m => round4 (((ringPairs c).filter
          (fun pr => mlookup c.hashMap pr.1 = m)).map pctOf).sum)).sum -
        (c.members.map (fun m => (((ringPairs c).filter
          (fun pr => mlookup c.hashMap pr.1 = m)).map pctOf).sum)).sum|
      ≤ (c.members.length : ℚ) * (1 / 20000) := hbd
    _ = (c.members.length : ℚ) / 20000 := by ring

theorem getStats_load_sums_to_100_witness :
    (exampleAB.ring.Sorted (· < ·) ∧ exampleAB.ring ≠ [] ∧
      (∀ x ∈ exampleAB.ring, x ≤ maxU) ∧
      (∀ pr ∈ ringPairs exampleAB,
        mlookup exampleAB.hashMap pr.1 ∈ exampleAB.members) ∧
      exampleAB.members.Nodup) ∧
    (((ringPairs exampleAB).map pctOf).sum = 100 ∧
     (GetStats exampleAB).loadDistribution =
       exampleAB.members.map (fun m =>
         (m, round4 (((ringPairs exampleAB).filter
           (fun pr => mlookup exampleAB.hashMap pr.1 = m)).map pctOf).sum)) ∧
     |((GetStats exampleAB).loadDistribution.map (fun p => p.2)).sum - 100| ≤
       (exampleAB.members.length : ℚ) / 20000) :=
  ⟨⟨by decide, by decide, by decide, by decide, by decide⟩,
   getStats_load_sums_to_100 exampleAB (by decide) (by decide) (by decide)
     (by decide) (by decide)⟩

end ConsistentHashing
